import Mathlib

/-!
Shallow embedding of `app.py` (minuta DOCX filling pipeline) and verification
of the specification claims about it.

Strings are modelled as `List Char`.  Python's `str.strip()` is `pyStrip`,
`str.strip("_")` is `stripUnderscore`, and `str.upper()` — applied, as in the
source, only after every remaining character is ASCII — is
`List.map Char.toUpper`.  Character classes are stated on code points
(`Char.toNat`), e.g. `\d` is `48 ≤ c.toNat ∧ c.toNat ≤ 57`.

Unicode NFKD decomposition and the combining-mark test used by
`normalize_key` are parameters of the embedding (`nfkd`, `combining`);
theorems that need facts about them state those facts as hypotheses that
hold for real Unicode (NFKD is the identity on the ASCII output alphabet,
whose characters are not combining marks).
-/

set_option maxHeartbeats 1000000

namespace Minutas

abbrev Str := List Char

/-- Python whitespace (the ASCII part), as stripped by `str.strip()` and
matched by the regex class `\s`. -/
def isPySpace (c : Char) : Bool :=
  c.toNat == 32 || c.toNat == 9 || c.toNat == 10 || c.toNat == 13 ||
    c.toNat == 11 || c.toNat == 12

/-- The regex class `\d` (ASCII digits, as they appear in identifiers). -/
def isDigitChar (c : Char) : Bool :=
  decide (48 ≤ c.toNat ∧ c.toNat ≤ 57)

/-- The regex class `[A-Za-z0-9]` from `normalize_key`'s substitution. -/
def isAlnumAscii (c : Char) : Bool :=
  decide ((65 ≤ c.toNat ∧ c.toNat ≤ 90) ∨ (97 ≤ c.toNat ∧ c.toNat ≤ 122) ∨
    (48 ≤ c.toNat ∧ c.toNat ≤ 57))

/-- Characters that can occur in a fully normalized key: `[A-Z0-9_]`. -/
def isKeyChar (c : Char) : Bool :=
  decide ((65 ≤ c.toNat ∧ c.toNat ≤ 90) ∨ (48 ≤ c.toNat ∧ c.toNat ≤ 57) ∨
    c.toNat = 95)

/-- Python `str.strip(chars)`: drop characters satisfying `p` from both
ends. -/
def stripEnds (p : Char → Bool) (l : Str) : Str :=
  ((l.dropWhile p).reverse.dropWhile p).reverse

/-- `str.strip()`: drop whitespace from both ends. -/
def pyStrip (l : Str) : Str :=
  stripEnds isPySpace l

/-- `str.strip("_")`: drop underscores from both ends. -/
def stripUnderscore (l : Str) : Str :=
  stripEnds (· == '_') l

mutual

/-- `re.sub(r"[^A-Za-z0-9]+", "_", s)`: replace every maximal run of
non-alphanumeric characters by a single underscore. -/
def collapse : Str → Str
  | [] => []
  | c :: rest =>
    if isAlnumAscii c then c :: collapse rest
    else '_' :: collapseAfterSep rest

/-- State of `collapse` inside a non-alphanumeric run whose underscore has
already been emitted. -/
def collapseAfterSep : Str → Str
  | [] => []
  | c :: rest =>
    if isAlnumAscii c then c :: collapse rest
    else collapseAfterSep rest

end

/-- `normalize_key` from `app.py`: strip, NFKD-decompose, drop combining
marks, replace non-alphanumeric runs by `_`, strip `_`, uppercase.
(`Char.toUpper` is exactly Python's `str.upper()` on the ASCII-only string
produced by the substitution step.) -/
def normalize_key (nfkd : Str → Str) (combining : Char → Bool) (s : Str) : Str :=
  (stripUnderscore (collapse ((nfkd (pyStrip s)).filter (fun c => !combining c)))).map Char.toUpper

/-- `safe_str` from `app.py`.  `none` models Python `None` and NaN cells;
a present string is stripped. -/
def safe_str : Option Str → Str
  | none => []
  | some s => pyStrip s

/-- `int(...)` on a digit string: base-10 value. -/
def digitsToNat (l : Str) : Nat :=
  l.foldl (fun a c => a * 10 + (c.toNat - 48)) 0

/-- `\d{4}` at the current position: the next four characters, if they
exist and are all digits. -/
def grab4 : Str → Option Str
  | a :: b :: c :: d :: _ =>
    if isDigitChar a && isDigitChar b && isDigitChar c && isDigitChar d then
      some [a, b, c, d]
    else none
  | _ => none

/-- After the leading digit group `d1` and any whitespace: require `/`,
skip whitespace, and capture four digits. -/
def afterDigits (d1 : Str) : Str → Option (Str × Str)
  | [] => none
  | f :: rest2 =>
    if f = '/' then (grab4 (rest2.dropWhile isPySpace)).map (fun y => (d1, y))
    else none

/-- Matching of the pattern `(\d+)\s*/\s*(\d{4})` anchored at the start of
`l`, returning the two captured groups.  Backtracking is irrelevant here:
the greedy `\d+` is forced (shortening it puts a digit where `/` must be)
and `\s*` is forced (shortening it puts whitespace where `/` or a digit
must be), so the match is computed deterministically. -/
def matchNumYearHere (l : Str) : Option (Str × Str) :=
  let d1 := l.takeWhile isDigitChar
  if d1.isEmpty then none
  else afterDigits d1 ((l.dropWhile isDigitChar).dropWhile isPySpace)

/-- `_NUM_YEAR.search`: try the pattern at every start position, leftmost
match wins. -/
def searchNumYear : Str → Option (Str × Str)
  | [] => none
  | c :: rest =>
    match matchNumYearHere (c :: rest) with
    | some g => some g
    | none => searchNumYear rest

/-- `_FIRST_INT.search`: the first maximal digit run, scanning left to
right. -/
def searchFirstInt : Str → Option Str
  | [] => none
  | c :: rest =>
    if isDigitChar c then some ((c :: rest).takeWhile isDigitChar)
    else searchFirstInt rest

/-- `parse_order_value` from `app.py`. -/
def parse_order_value (text : Str) : Nat × Nat :=
  let t := safe_str (some text)
  match searchNumYear t with
  | some (d, y) => (digitsToNat y, digitsToNat d)
  | none =>
    match searchFirstInt t with
    | some d => (0, digitsToNat d)
    | none => (10 ^ 9, 10 ^ 9)

/-- Adjacency invariant of `collapse` output: no two successive
non-alphanumeric characters. -/
def SepOk (a b : Char) : Prop :=
  isAlnumAscii a = true ∨ isAlnumAscii b = true

/-- The spec's side condition: the text contains a substring
`digits, optional whitespace, '/', optional whitespace, four digits`. -/
def HasNumYear (l : Str) : Prop :=
  ∃ a d w1 w2 y b, l = a ++ (d ++ (w1 ++ '/' :: (w2 ++ (y ++ b)))) ∧ d ≠ [] ∧
    (∀ c ∈ d, isDigitChar c = true) ∧ (∀ c ∈ w1, isPySpace c = true) ∧
    (∀ c ∈ w2, isPySpace c = true) ∧ y.length = 4 ∧ (∀ c ∈ y, isDigitChar c = true)

/-- Substring containment: Python's `needle in haystack`. -/
def isSubstring (needle : Str) : Str → Bool
  | [] => needle.isEmpty
  | c :: rest => needle.isPrefixOf (c :: rest) || isSubstring needle rest

/-- A body paragraph of the DOCX document: its text, style name, and
paragraph-format space-after value (in points, when set). -/
structure Paragraph where
  text : Str
  style : Str
  space_after : Option Nat
deriving DecidableEq, Repr

/-- The decoded document: its body paragraph sequence (`doc.paragraphs`). -/
structure DocxDoc where
  paragraphs : List Paragraph
deriving DecidableEq, Repr

/-- The paragraphs inserted before the marker paragraph by
`insert_block_at_marker`'s inner loop: one paragraph per line, skipping
whitespace-only lines (`if not line.strip(): continue`); each gets the
document's "Normal" style and the given space-after. -/
def insertedParas (space_after_pt : Nat) : List Str → List Paragraph
  | [] => []
  | line :: rest =>
    if (pyStrip line).isEmpty then insertedParas space_after_pt rest
    else ⟨line, "Normal".toList, some space_after_pt⟩ :: insertedParas space_after_pt rest

/-- The scan of `insert_block_at_marker`: find the first body paragraph
containing the marker, clear its text, and insert the generated paragraphs
immediately before it; the loop `break`s, so later occurrences are not
touched. -/
def scanInsert (marker : Str) (lines : List Str) (sp : Nat) :
    List Paragraph → Option (List Paragraph)
  | [] => none
  | p :: rest =>
    if isSubstring marker p.text then
      some (insertedParas sp lines ++ { p with text := [] } :: rest)
    else
      (scanInsert marker lines sp rest).map (p :: ·)

/-- `insert_block_at_marker` from `app.py`, on the decoded document.
A missing marker raises `ValueError` (the spec's `MarkerNotFoundError`),
modelled as `Except.error` carrying the message; on that path `doc.save`
is never reached, so no output bytes exist. -/
def insert_block_at_marker (doc : DocxDoc) (marker : Str) (lines : List Str)
    (space_after_pt : Nat := 12) : Except Str DocxDoc :=
  match scanInsert marker lines space_after_pt doc.paragraphs with
  | some ps => .ok ⟨ps⟩
  | none =>
    .error ("Marcador '".toList ++
      (marker ++ "' não encontrado no corpo do documento.".toList))

/-- A decoded spreadsheet record: normalized column name to cell string.
(`dict` semantics: on duplicate keys the last binding wins.) -/
abbrev Record := List (Str × Str)

/-- Python `dict.get(k, "")`. -/
def rget (r : Record) (k : Str) : Str :=
  match r.reverse.find? (fun kv => kv.1 == k) with
  | some kv => kv.2
  | none => []

/-- Python `sep.join(parts)`. -/
def joinSep (sep : Str) : List Str → Str
  | [] => []
  | [x] => x
  | x :: y :: xs => x ++ (sep ++ joinSep sep (y :: xs))

/-- The `parts` list built by `build_portaria_lines` for one record:
skip empty values; label values with `"COL: "` when asked to. -/
def lineParts (label_cols : Bool) (r : Record) : List Str → List Str
  | [] => []
  | c :: cs =>
    let v := safe_str (some (rget r c))
    if v.isEmpty then lineParts label_cols r cs
    else (if label_cols then c ++ (':' :: ' ' :: v) else v) :: lineParts label_cols r cs

/-- `build_portaria_lines` from `app.py`: one generated line per record,
joining the non-empty labelled values of the selected (normalized)
columns. -/
def build_portaria_lines (nfkd : Str → Str) (combining : Char → Bool)
    (records : List Record) (include_cols : List Str) (label_cols : Bool := true)
    (sep : Str := " - ".toList) : List Str :=
  let cols := include_cols.map (normalize_key nfkd combining)
  records.map (fun r => joinSep sep (lineParts label_cols r cols))

/-- The loaded sheet: normalized column names, the records, and the
first-row convenience context (`df_raw`/`df_norm` are represented by the
normalized column list; the cell data lives in `records`). -/
structure SheetData where
  cols : List Str
  records : List Record
  globals_first_row : Record
deriving Repr

/-- `pd.read_excel(..., dtype=str).fillna("")`: a missing/NaN cell becomes
the empty string. -/
def fillna : Option Str → Str
  | none => []
  | some s => s

/-- `load_sheet` from `app.py`, on the decoded sheet (headers plus rows of
optional cell strings; `none` is a NaN/missing cell).  Raises `ValueError`
(the spec's `EmptyInputError`), modelled as `Except.error`, when there are
no data rows; otherwise normalizes the column names, cleans every cell
with `safe_str`, and keeps the first row as the global context. -/
def load_sheet (nfkd : Str → Str) (combining : Char → Bool)
    (headers : List Str) (rows : List (List (Option Str))) : Except Str SheetData :=
  if rows.isEmpty then
    .error "A planilha está vazia (sem linhas de dados).".toList
  else
    let normHeaders := headers.map (normalize_key nfkd combining)
    let records := rows.map (fun row =>
      normHeaders.zip (row.map (fun cell => safe_str (some (fillna cell)))))
    .ok ⟨normHeaders, records, records.headD []⟩

/-- Lexicographic comparison of `(epoch, sequence)` keys — Python's tuple
order used by `sorted`. -/
def keyLe (a b : Nat × Nat) : Bool :=
  decide (a.1 < b.1) || (decide (a.1 = b.1) && decide (a.2 ≤ b.2))

/-- The sort key of `sort_records`: parse the record's order column. -/
def orderKey (nfkd : Str → Str) (combining : Char → Bool) (order_col : Str)
    (r : Record) : Nat × Nat :=
  parse_order_value (rget r (normalize_key nfkd combining order_col))

/-- `sort_records` from `app.py`: stable ascending sort by the parsed
order value.  Python's `sorted` is the stable mergesort by the key;
`List.mergeSort` is the stable mergesort with the same comparator. -/
def sort_records (nfkd : Str → Str) (combining : Char → Bool)
    (records : List Record) (order_col : Str) : List Record :=
  records.mergeSort (fun a b =>
    keyLe (orderKey nfkd combining order_col a) (orderKey nfkd combining order_col b))

/-- The priority list of `guess_order_column`. -/
def priorities : List Str :=
  ["PORTARIA".toList, "N_PORTARIA".toList, "NUM_PORTARIA".toList, "N_ATESTO".toList,
    "ATESTO".toList, "NUMERO".toList, "N_NUMERO".toList, "N".toList]

/-- The fallback keywords of `guess_order_column`. -/
def orderKeywords : List Str :=
  ["PORTARIA".toList, "ATESTO".toList, "NUMER".toList, "N_".toList]

/-- `guess_order_column` from `app.py`: first priority name present in the
columns, else the first column containing one of the keywords, else
`none`. -/
def guess_order_column (df_cols_norm : List Str) : Option Str :=
  match priorities.find? (fun p => df_cols_norm.contains p) with
  | some p => some p
  | none => df_cols_norm.find? (fun c => orderKeywords.any (fun k => isSubstring k c))

/-- The app's order-column preselection, line 258 of `app.py`:
`guessed = guess_order_column(cols_norm) or (cols_norm[0] if cols_norm
else "")` — when nothing resolves it silently falls back to the first
column (or the empty string). -/
def guessed_default (cols_norm : List Str) : Str :=
  match guess_order_column cols_norm with
  | some c => c
  | none => cols_norm.headD []

/-- Context lookup (`dict` semantics: the last binding of a key wins, so
operator extras appended after the first-row globals take precedence). -/
def ctxGet (ctx : List (Str × Str)) (k : Str) : Option Str :=
  (ctx.reverse.find? (fun kv => kv.1 == k)).map (fun kv => kv.2)

/-- Modelled from the spec: the `{{KEY}}` placeholder-substitution scanner
that `render_template_docx` delegates to the external docxtpl/Jinja engine
(spec §4.5) — that engine's internals are not part of `src/`.  The mode
argument is `none` while scanning plain text and `some acc` inside a
`{{…}}` token, `acc` holding the key characters read so far, in reverse.
On the closing `}}` a key present in the context is replaced by its value
and an absent key leaves the whole token untouched; replaced values are
not rescanned (no double substitution).  A brace before the token closes
makes the scan give up and emit the text literally. -/
def substAux (ctx : List (Str × Str)) : Option Str → Str → Str
  | none, [] => []
  | none, c :: rest =>
    if c = '{' then
      match rest with
      | c2 :: rest2 =>
        if c2 = '{' then substAux ctx (some []) rest2
        else c :: substAux ctx none (c2 :: rest2)
      | [] => [c]
    else c :: substAux ctx none rest
  | some acc, [] => '{' :: '{' :: acc.reverse
  | some acc, c :: rest =>
    if c = '}' then
      match rest with
      | c2 :: rest2 =>
        if c2 = '}' then
          (match ctxGet ctx acc.reverse with
           | some v => v
           | none => '{' :: '{' :: (acc.reverse ++ ['}', '}'])) ++ substAux ctx none rest2
        else '{' :: '{' :: (acc.reverse ++ (c :: substAux ctx none (c2 :: rest2)))
      | [] => '{' :: '{' :: (acc.reverse ++ [c])
    else if c = '{' then '{' :: '{' :: (acc.reverse ++ (c :: substAux ctx none rest))
    else substAux ctx (some (c :: acc)) rest

/-- Modelled from the spec: paragraph-text placeholder substitution. -/
def substTokens (ctx : List (Str × Str)) (l : Str) : Str :=
  substAux ctx none l

/-- Modelled from the spec: document-level placeholder substitution —
every text-bearing paragraph of the tree has its `{{KEY}}` tokens
replaced; the operation is total (no error). -/
def render_sub (doc : DocxDoc) (ctx : List (Str × Str)) : DocxDoc :=
  ⟨doc.paragraphs.map (fun p => { p with text := substTokens ctx p.text })⟩

/-- The generation pipeline (the `st.button` block of `app.py`, lines
296–317): load the sheet, sort the records, build the context (first-row
globals then operator extras, extras winning on collision; the `registros`
loop list feeds only the external engine), render the template, and
optionally insert the marker block.  Any error aborts with no document. -/
def generate (nfkd : Str → Str) (combining : Char → Bool)
    (headers : List Str) (rows : List (List (Option Str))) (template : DocxDoc)
    (order_col : Str) (extras : List (Str × Str)) (use_marker_block : Bool)
    (marker_text : Str) (marker_cols : List Str) (marker_label_cols : Bool)
    (marker_space : Nat) : Except Str DocxDoc := do
  let sheet ← load_sheet nfkd combining headers rows
  let records_sorted := sort_records nfkd combining sheet.records order_col
  let context := sheet.globals_first_row ++ extras
  let rendered := render_sub template context
  if use_marker_block then
    if marker_cols.isEmpty then
      .error "Selecione ao menos uma coluna para compor o bloco.".toList
    else
      insert_block_at_marker rendered marker_text
        (build_portaria_lines nfkd combining records_sorted marker_cols
          marker_label_cols " - ".toList) marker_space
  else
    .ok rendered

/-! ### Character facts -/

theorem char_toNat_inj {c d : Char} (h : c.toNat = d.toNat) : c = d :=
  Char.ext (UInt32.ext h)

theorem toNat_ofNat_valid {n : Nat} (h : n < 55296) : (Char.ofNat n).toNat = n := by
  have hv : n.isValidChar := Or.inl h
  simp [Char.ofNat, hv, Char.ofNatAux, Char.toNat, UInt32.toNat, BitVec.toNat_ofNatLt]

theorem toUpper_toNat_low {c : Char} (h1 : 97 ≤ c.toNat) (h2 : c.toNat ≤ 122) :
    c.toUpper.toNat = c.toNat - 32 := by
  unfold Char.toUpper
  simp only [h1, h2, and_true, if_pos, ge_iff_le]
  exact toNat_ofNat_valid (by omega)

theorem toUpper_eq_self {c : Char} (h : ¬(97 ≤ c.toNat ∧ c.toNat ≤ 122)) :
    c.toUpper = c := by
  unfold Char.toUpper
  rw [if_neg h]

theorem key_char_cases {c : Char} (h : isKeyChar c = true) :
    isAlnumAscii c = true ∨ c = '_' := by
  simp only [isKeyChar, decide_eq_true_eq] at h
  rcases h with h | h | h
  · left; simp only [isAlnumAscii, decide_eq_true_eq]; omega
  · left; simp only [isAlnumAscii, decide_eq_true_eq]; omega
  · right; exact char_toNat_inj (h.trans (by decide))

theorem key_not_space {c : Char} (h : isKeyChar c = true) : isPySpace c = false := by
  simp only [isKeyChar, decide_eq_true_eq] at h
  simp only [isPySpace, Bool.or_eq_false_iff, beq_eq_false_iff_ne, ne_eq]
  omega

theorem key_toUpper_fixed {c : Char} (h : isKeyChar c = true) : c.toUpper = c := by
  simp only [isKeyChar, decide_eq_true_eq] at h
  exact toUpper_eq_self (by omega)

theorem toUpper_alnum {c : Char} : isAlnumAscii c.toUpper = isAlnumAscii c := by
  simp only [isAlnumAscii, decide_eq_decide]
  by_cases h : 97 ≤ c.toNat ∧ c.toNat ≤ 122
  · rw [toUpper_toNat_low h.1 h.2]; omega
  · rw [toUpper_eq_self h]

theorem toUpper_key {c : Char} (h : isAlnumAscii c = true ∨ c = '_') :
    isKeyChar c.toUpper = true := by
  rcases h with h | h
  · simp only [isAlnumAscii, decide_eq_true_eq] at h
    simp only [isKeyChar, decide_eq_true_eq]
    by_cases hl : 97 ≤ c.toNat ∧ c.toNat ≤ 122
    · rw [toUpper_toNat_low hl.1 hl.2]; omega
    · rw [toUpper_eq_self hl]; omega
  · rw [h]; decide

theorem toUpper_underscore_iff {c : Char} : c.toUpper = '_' ↔ c = '_' := by
  constructor
  · intro h
    by_cases hl : 97 ≤ c.toNat ∧ c.toNat ≤ 122
    · exfalso
      have ht := toUpper_toNat_low hl.1 hl.2
      rw [h] at ht
      have h95 : ('_').toNat = 95 := by decide
      omega
    · rwa [toUpper_eq_self hl] at h
  · intro h; rw [h]; decide

/-! ### Generic `strip`-style lemmas -/

theorem mem_of_mem_dropWhile {p : Char → Bool} {l : Str} {c : Char}
    (h : c ∈ l.dropWhile p) : c ∈ l :=
  (List.dropWhile_suffix p).sublist.subset h

theorem dropWhile_eq_self_of_head {p : Char → Bool} {l : Str}
    (h : ∀ c ∈ l.head?, p c = false) : l.dropWhile p = l := by
  cases l with
  | nil => rfl
  | cons a t => exact List.dropWhile_cons_of_neg (by simp [h a rfl])

theorem head_dropWhile_false (p : Char → Bool) :
    ∀ l : Str, ∀ c ∈ (l.dropWhile p).head?, p c = false
  | [], _, h => by simp at h
  | a :: t, c, h => by
    by_cases hp : p a = true
    · rw [List.dropWhile_cons_of_pos hp] at h
      exact head_dropWhile_false p t c h
    · rw [List.dropWhile_cons_of_neg (by simp [hp])] at h
      cases h
      simpa using hp

theorem head_eq_of_mem_head {l : Str} {c : Char} (hc : c ∈ l.head?) : c ∈ l := by
  cases l with
  | nil => simp at hc
  | cons a t => cases hc; simp

theorem getLast_eq_of_mem_getLast {l : Str} {c : Char} (hc : c ∈ l.getLast?) : c ∈ l := by
  rw [List.getLast?_eq_head?_reverse] at hc
  rw [← List.mem_reverse]
  exact head_eq_of_mem_head hc

theorem dropWhile_eq_self_of_all {p : Char → Bool} {l : Str}
    (h : ∀ c ∈ l, p c = false) : l.dropWhile p = l :=
  dropWhile_eq_self_of_head (fun c hc => h c (head_eq_of_mem_head hc))

theorem stripEnds_fixed {p : Char → Bool} {l : Str}
    (h : ∀ c ∈ l, p c = false) : stripEnds p l = l := by
  unfold stripEnds
  rw [dropWhile_eq_self_of_all h,
    dropWhile_eq_self_of_all (fun c hc => h c (List.mem_reverse.mp hc)),
    List.reverse_reverse]

theorem mem_stripEnds {p : Char → Bool} {l : Str} {c : Char}
    (h : c ∈ stripEnds p l) : c ∈ l := by
  unfold stripEnds at h
  rw [List.mem_reverse] at h
  have h2 := mem_of_mem_dropWhile h
  rw [List.mem_reverse] at h2
  exact mem_of_mem_dropWhile h2

theorem stripEnds_head {p : Char → Bool} {l : Str} :
    ∀ c ∈ (stripEnds p l).head?, p c = false := by
  intro c hc
  unfold stripEnds at hc
  rw [List.head?_reverse] at hc
  rcases hdw : ((l.dropWhile p).reverse).dropWhile p with _ | ⟨a, t⟩
  · rw [hdw] at hc; simp at hc
  · obtain ⟨u, hu⟩ := List.dropWhile_suffix (l := (l.dropWhile p).reverse) p
    have hlast : ((l.dropWhile p).reverse).getLast? =
        (((l.dropWhile p).reverse).dropWhile p).getLast? := by
      conv_lhs => rw [← hu]
      exact List.getLast?_append_of_ne_nil u (by rw [hdw]; simp)
    rw [← hlast, List.getLast?_reverse] at hc
    exact head_dropWhile_false p l c hc

theorem stripEnds_getLast {p : Char → Bool} {l : Str} :
    ∀ c ∈ (stripEnds p l).getLast?, p c = false := by
  intro c hc
  unfold stripEnds at hc
  rw [List.getLast?_reverse] at hc
  exact head_dropWhile_false p _ c hc

theorem stripEnds_fixed_of_ends {p : Char → Bool} {l : Str}
    (h1 : ∀ c ∈ l.head?, p c = false) (h2 : ∀ c ∈ l.getLast?, p c = false) :
    stripEnds p l = l := by
  unfold stripEnds
  rw [dropWhile_eq_self_of_head h1,
    dropWhile_eq_self_of_head (fun c hc => h2 c (by rwa [List.head?_reverse] at hc)),
    List.reverse_reverse]

example : parse_order_value "123/2025".toList = (2025, 123) := by decide
example : parse_order_value "  Portaria 45 / 2024 x".toList = (2024, 45) := by decide
example : parse_order_value "abc 78 def".toList = (0, 78) := by decide
example : parse_order_value "sem numero".toList = (10 ^ 9, 10 ^ 9) := by decide
example : parse_order_value "1234/567".toList = (0, 1234) := by decide
example : normalize_key (fun l => l) (fun _ => false) "  No  Atesto  ".toList
    = "NO_ATESTO".toList := by decide

/-! ### Invariants of `collapse` -/

theorem sepOk_symm {a b : Char} (h : SepOk a b) : SepOk b a :=
  h.symm

theorem collapse_charsPair :
    ∀ l : Str, (∀ c ∈ collapse l, isAlnumAscii c = true ∨ c = '_') ∧
      (∀ c ∈ collapseAfterSep l, isAlnumAscii c = true ∨ c = '_')
  | [] => ⟨by simp [collapse], by simp [collapseAfterSep]⟩
  | a :: rest => by
    obtain ⟨ih1, ih2⟩ := collapse_charsPair rest
    by_cases ha : isAlnumAscii a = true
    · refine ⟨fun c hc => ?_, fun c hc => ?_⟩
      · simp only [collapse, ha, if_true, List.mem_cons] at hc
        rcases hc with rfl | hc
        · exact Or.inl ha
        · exact ih1 c hc
      · simp only [collapseAfterSep, ha, if_true, List.mem_cons] at hc
        rcases hc with rfl | hc
        · exact Or.inl ha
        · exact ih1 c hc
    · rw [Bool.not_eq_true] at ha
      refine ⟨fun c hc => ?_, fun c hc => ?_⟩
      · simp only [collapse, ha, Bool.false_eq_true, if_false, List.mem_cons] at hc
        rcases hc with rfl | hc
        · exact Or.inr rfl
        · exact ih2 c hc
      · simp only [collapseAfterSep, ha, Bool.false_eq_true, if_false] at hc
        exact ih2 c hc

theorem collapse_chainPair :
    ∀ l : Str, (collapse l).Chain' SepOk ∧ (collapseAfterSep l).Chain' SepOk ∧
      (∀ c ∈ (collapseAfterSep l).head?, isAlnumAscii c = true)
  | [] => ⟨by simp [collapse], by simp [collapseAfterSep], by simp [collapseAfterSep]⟩
  | a :: rest => by
    obtain ⟨ih1, ih2, ih3⟩ := collapse_chainPair rest
    by_cases ha : isAlnumAscii a = true
    · have hchain : (a :: collapse rest).Chain' SepOk :=
        List.chain'_cons'.mpr ⟨fun y _ => Or.inl ha, ih1⟩
      refine ⟨?_, ?_, ?_⟩
      · simpa only [collapse, ha, if_true] using hchain
      · simpa only [collapseAfterSep, ha, if_true] using hchain
      · intro c hc
        simp only [collapseAfterSep, ha, if_true, List.head?_cons] at hc
        cases hc
        exact ha
    · rw [Bool.not_eq_true] at ha
      refine ⟨?_, ?_, ?_⟩
      · simp only [collapse, ha, Bool.false_eq_true, if_false]
        exact List.chain'_cons'.mpr ⟨fun y hy => Or.inr (ih3 y hy), ih2⟩
      · simpa only [collapseAfterSep, ha, Bool.false_eq_true, if_false] using ih2
      · intro c hc
        simp only [collapseAfterSep, ha, Bool.false_eq_true, if_false] at hc
        exact ih3 c hc

theorem collapse_fixedPair :
    ∀ l : Str,
      ((∀ c ∈ l, isAlnumAscii c = true ∨ c = '_') → l.Chain' SepOk → collapse l = l) ∧
      ((∀ c ∈ l, isAlnumAscii c = true ∨ c = '_') → l.Chain' SepOk →
        (∀ c ∈ l.head?, isAlnumAscii c = true) → collapseAfterSep l = l)
  | [] => ⟨fun _ _ => rfl, fun _ _ _ => rfl⟩
  | a :: rest => by
    obtain ⟨ih1, ih2⟩ := collapse_fixedPair rest
    constructor
    · intro hchars hchain
      by_cases ha : isAlnumAscii a = true
      · simp only [collapse, ha, if_true]
        rw [ih1 (fun c hc => hchars c (List.mem_cons_of_mem a hc)) hchain.tail]
      · rw [Bool.not_eq_true] at ha
        have ha' : a = '_' := by
          rcases hchars a (List.mem_cons_self a rest) with h | h
          · rw [ha] at h; cases h
          · exact h
        simp only [collapse, ha, Bool.false_eq_true, if_false]
        rw [ih2 (fun c hc => hchars c (List.mem_cons_of_mem a hc)) hchain.tail, ha']
        intro c hc
        have hsep := (List.chain'_cons'.mp hchain).1 c hc
        rcases hsep with h | h
        · rw [ha] at h; cases h
        · exact h
    · intro hchars hchain hhead
      have ha : isAlnumAscii a = true := hhead a rfl
      simp only [collapseAfterSep, ha, if_true]
      rw [ih1 (fun c hc => hchars c (List.mem_cons_of_mem a hc)) hchain.tail]

/-! ### Shape of normalized keys -/

theorem map_eq_self_of {f : Char → Char} :
    ∀ {l : Str}, (∀ c ∈ l, f c = c) → l.map f = l
  | [], _ => rfl
  | a :: t, h => by
    rw [List.map_cons, h a (List.mem_cons_self a t),
      map_eq_self_of (fun c hc => h c (List.mem_cons_of_mem a hc))]

theorem normalize_key_chars {nfkd : Str → Str} {comb : Char → Bool} {s : Str} :
    ∀ c ∈ normalize_key nfkd comb s, isKeyChar c = true := by
  intro c hc
  unfold normalize_key stripUnderscore at hc
  obtain ⟨c0, hc0, rfl⟩ := List.mem_map.mp hc
  exact toUpper_key ((collapse_charsPair _).1 c0 (mem_stripEnds hc0))

theorem normalize_key_chain {nfkd : Str → Str} {comb : Char → Bool} {s : Str} :
    (normalize_key nfkd comb s).Chain' SepOk := by
  unfold normalize_key stripUnderscore
  rw [List.chain'_map]
  have base : (stripEnds (· == '_') (collapse ((nfkd (pyStrip s)).filter (fun c => !comb c)))).Chain' SepOk := by
    unfold stripEnds
    have h1 := ((collapse_chainPair ((nfkd (pyStrip s)).filter (fun c => !comb c))).1).suffix
      (List.dropWhile_suffix (· == '_'))
    have h2 : ((collapse ((nfkd (pyStrip s)).filter (fun c => !comb c))).dropWhile (· == '_')).reverse.Chain' SepOk :=
      List.chain'_reverse.mpr (h1.imp (fun a b hab => sepOk_symm hab))
    have h3 := h2.suffix (List.dropWhile_suffix (· == '_'))
    exact List.chain'_reverse.mpr (h3.imp (fun a b hab => sepOk_symm hab))
  exact base.imp (fun a b hab => by
    rcases hab with h | h
    · exact Or.inl (toUpper_alnum.trans h)
    · exact Or.inr (toUpper_alnum.trans h))

theorem normalize_key_head {nfkd : Str → Str} {comb : Char → Bool} {s : Str} :
    ∀ c ∈ (normalize_key nfkd comb s).head?, (c == '_') = false := by
  intro c hc
  unfold normalize_key stripUnderscore at hc
  rw [List.head?_map] at hc
  rcases hh : (stripEnds (· == '_') (collapse ((nfkd (pyStrip s)).filter (fun c => !comb c)))).head? with _ | c0
  · rw [hh] at hc; simp at hc
  · rw [hh] at hc
    cases hc
    have h0 : (c0 == '_') = false := stripEnds_head c0 hh
    rw [beq_eq_false_iff_ne, ne_eq] at h0 ⊢
    intro hu
    exact h0 (toUpper_underscore_iff.mp hu)

theorem normalize_key_last {nfkd : Str → Str} {comb : Char → Bool} {s : Str} :
    ∀ c ∈ (normalize_key nfkd comb s).getLast?, (c == '_') = false := by
  intro c hc
  unfold normalize_key stripUnderscore at hc
  rw [List.getLast?_map] at hc
  rcases hh : (stripEnds (· == '_') (collapse ((nfkd (pyStrip s)).filter (fun c => !comb c)))).getLast? with _ | c0
  · rw [hh] at hc; simp at hc
  · rw [hh] at hc
    cases hc
    have h0 : (c0 == '_') = false := stripEnds_getLast c0 hh
    rw [beq_eq_false_iff_ne, ne_eq] at h0 ⊢
    intro hu
    exact h0 (toUpper_underscore_iff.mp hu)

theorem normalize_key_fixed {nfkd : Str → Str} {comb : Char → Bool}
    (hn : ∀ l : Str, (∀ c ∈ l, isKeyChar c = true) → nfkd l = l)
    (hc : ∀ c : Char, isKeyChar c = true → comb c = false)
    {l : Str} (hkey : ∀ c ∈ l, isKeyChar c = true)
    (hchain : l.Chain' SepOk)
    (hhead : ∀ c ∈ l.head?, (c == '_') = false)
    (hlast : ∀ c ∈ l.getLast?, (c == '_') = false) :
    normalize_key nfkd comb l = l := by
  unfold normalize_key pyStrip stripUnderscore
  rw [stripEnds_fixed (fun c hcm => key_not_space (hkey c hcm)),
    hn l hkey,
    List.filter_eq_self.mpr (fun c hcm => by rw [hc c (hkey c hcm)]; rfl),
    (collapse_fixedPair l).1 (fun c hcm => key_char_cases (hkey c hcm)) hchain,
    stripEnds_fixed_of_ends hhead hlast]
  exact map_eq_self_of (fun c hcm => key_toUpper_fixed (hkey c hcm))

/-- C5: key normalization is idempotent — for every input string `x`,
`normalize_key (normalize_key x) = normalize_key x`, equivalently every
already-normalized key is a fixed point.  The hypotheses state the two
Unicode facts the proof needs, both true of real NFKD: decomposing a
string of characters from `[A-Z0-9_]` leaves it unchanged, and no such
character is a combining mark. -/
theorem C5_normalize_key_idempotent (nfkd : Str → Str) (comb : Char → Bool)
    (hn : ∀ l : Str, (∀ c ∈ l, isKeyChar c = true) → nfkd l = l)
    (hc : ∀ c : Char, isKeyChar c = true → comb c = false) (s : Str) :
    normalize_key nfkd comb (normalize_key nfkd comb s) = normalize_key nfkd comb s :=
  normalize_key_fixed hn hc normalize_key_chars normalize_key_chain
    normalize_key_head normalize_key_last

/-- Witness for C5 at a concrete input (with NFKD instantiated as the
identity and an empty combining class, which satisfy the hypotheses). -/
theorem C5_witness :
    normalize_key (fun l => l) (fun _ => false)
        (normalize_key (fun l => l) (fun _ => false) "  No  Atesto 2024 ".toList)
      = normalize_key (fun l => l) (fun _ => false) "  No  Atesto 2024 ".toList :=
  C5_normalize_key_idempotent (fun l => l) (fun _ => false)
    (fun _ _ => rfl) (fun _ _ => rfl) ("  No  Atesto 2024 ".toList)

/-! ### Facts about the order-value regex search -/

theorem space_not_digit {c : Char} (h : isPySpace c = true) : isDigitChar c = false := by
  simp only [isPySpace, Bool.or_eq_true, beq_iff_eq] at h
  simp only [isDigitChar, decide_eq_false_iff_not, not_and]
  omega

theorem digit_not_space {c : Char} (h : isDigitChar c = true) : isPySpace c = false := by
  simp only [isDigitChar, decide_eq_true_eq] at h
  simp only [isPySpace, Bool.or_eq_false_iff, beq_eq_false_iff_ne, ne_eq]
  omega

theorem slash_not_space : isPySpace '/' = false := by decide

theorem slash_not_digit : isDigitChar '/' = false := by decide

theorem takeWhile_eq_nil_of_head {p : Char → Bool} {l : Str}
    (h : ∀ c ∈ l.head?, p c = false) : l.takeWhile p = [] := by
  cases l with
  | nil => rfl
  | cons a t => exact List.takeWhile_cons_of_neg (by simp [h a rfl])

theorem takeWhile_eq_nil_of_all {p : Char → Bool} {l : Str}
    (h : ∀ c ∈ l, p c = false) : l.takeWhile p = [] :=
  takeWhile_eq_nil_of_head (fun c hc => h c (head_eq_of_mem_head hc))

theorem takeWhile_append_none {p : Char → Bool} {ws : Str} (hws : ∀ c ∈ ws, p c = false) :
    ∀ x : Str, (x ++ ws).takeWhile p = x.takeWhile p
  | [] => by simp [takeWhile_eq_nil_of_all hws]
  | a :: x' => by
    by_cases hp : p a = true
    · rw [List.cons_append, List.takeWhile_cons_of_pos hp, List.takeWhile_cons_of_pos hp,
        takeWhile_append_none hws x']
    · rw [List.cons_append, List.takeWhile_cons_of_neg (by simp [hp]),
        List.takeWhile_cons_of_neg (by simp [hp])]

theorem dropWhile_append_none {p : Char → Bool} {ws : Str} (hws : ∀ c ∈ ws, p c = false) :
    ∀ x : Str, (x ++ ws).dropWhile p = x.dropWhile p ++ ws
  | [] => by simp [dropWhile_eq_self_of_all hws]
  | a :: x' => by
    by_cases hp : p a = true
    · rw [List.cons_append, List.dropWhile_cons_of_pos hp, List.dropWhile_cons_of_pos hp,
        dropWhile_append_none hws x']
    · rw [List.cons_append, List.dropWhile_cons_of_neg (by simp [hp]),
        List.dropWhile_cons_of_neg (by simp [hp]), List.cons_append]

theorem takeWhile_run {p : Char → Bool} {d b : Str} (hd : ∀ c ∈ d, p c = true)
    (hb : ∀ c ∈ b.head?, p c = false) : (d ++ b).takeWhile p = d := by
  rw [List.takeWhile_append_of_pos hd, takeWhile_eq_nil_of_head hb, List.append_nil]

theorem dropWhile_run {p : Char → Bool} {d b : Str} (hd : ∀ c ∈ d, p c = true)
    (hb : ∀ c ∈ b.head?, p c = false) : (d ++ b).dropWhile p = b := by
  rw [List.dropWhile_append_of_pos hd, dropWhile_eq_self_of_head hb]

theorem dropWhile_space_nil {ws : Str} (hws : ∀ c ∈ ws, isPySpace c = true) :
    ws.dropWhile isPySpace = [] :=
  List.dropWhile_eq_nil_iff.mpr hws

theorem grab4_append_ws {ws : Str} (hws : ∀ c ∈ ws, isPySpace c = true) :
    ∀ x : Str, grab4 (x ++ ws) = grab4 x
  | a :: b :: c :: d :: rest => rfl
  | [] => by
    rcases ws with _ | ⟨w1, _ | ⟨w2, _ | ⟨w3, _ | ⟨w4, wt⟩⟩⟩⟩
    · rfl
    · rfl
    · rfl
    · rfl
    · have h1 : isDigitChar w1 = false := space_not_digit (hws w1 (by simp))
      simp [grab4, h1]
  | [a] => by
    rcases ws with _ | ⟨w1, _ | ⟨w2, _ | ⟨w3, wt⟩⟩⟩
    · rfl
    · rfl
    · rfl
    · have h1 : isDigitChar w1 = false := space_not_digit (hws w1 (by simp))
      simp [grab4, h1]
  | [a, b] => by
    rcases ws with _ | ⟨w1, _ | ⟨w2, wt⟩⟩
    · rfl
    · rfl
    · have h1 : isDigitChar w1 = false := space_not_digit (hws w1 (by simp))
      simp [grab4, h1]
  | [a, b, c] => by
    rcases ws with _ | ⟨w1, wt⟩
    · rfl
    · have h1 : isDigitChar w1 = false := space_not_digit (hws w1 (by simp))
      simp [grab4, h1]

theorem grab4_sound {z y : Str} (h : grab4 z = some y) :
    ∃ t, z = y ++ t ∧ y.length = 4 ∧ ∀ c ∈ y, isDigitChar c = true := by
  match z with
  | [] => cases h
  | [a] => cases h
  | [a, b] => cases h
  | [a, b, c] => cases h
  | a :: b :: c :: d :: rest =>
    simp only [grab4] at h
    by_cases hd : (isDigitChar a && isDigitChar b && isDigitChar c && isDigitChar d) = true
    · rw [if_pos hd] at h
      cases h
      simp only [Bool.and_eq_true] at hd
      refine ⟨rest, rfl, rfl, ?_⟩
      intro x hx
      simp only [List.mem_cons, List.not_mem_nil, or_false] at hx
      rcases hx with rfl | rfl | rfl | rfl
      · exact hd.1.1.1
      · exact hd.1.1.2
      · exact hd.1.2
      · exact hd.2
    · rw [if_neg hd] at h
      cases h

theorem afterDigits_append_ws {ws : Str} (hws : ∀ c ∈ ws, isPySpace c = true)
    {d1 : Str} (s : Str) : afterDigits d1 (s ++ ws) = afterDigits d1 s := by
  cases s with
  | nil =>
    cases ws with
    | nil => rfl
    | cons w wt =>
      have hw : ¬ w = '/' := by
        intro hh
        have := hws w (List.mem_cons_self w wt)
        rw [hh] at this
        rw [slash_not_space] at this
        cases this
      simp only [List.nil_append, afterDigits, if_neg hw]
  | cons f ft =>
    rw [List.cons_append]
    simp only [afterDigits]
    by_cases hf : f = '/'
    · rw [if_pos hf, if_pos hf, List.dropWhile_append]
      by_cases h3 : (ft.dropWhile isPySpace).isEmpty = true
      · rw [if_pos h3, dropWhile_space_nil hws]
        rw [List.isEmpty_iff] at h3
        rw [h3]
      · rw [if_neg h3, grab4_append_ws hws]
    · rw [if_neg hf, if_neg hf]

theorem matchNumYearHere_append_ws {ws : Str} (hws : ∀ c ∈ ws, isPySpace c = true)
    (m : Str) : matchNumYearHere (m ++ ws) = matchNumYearHere m := by
  have hnd : ∀ c ∈ ws, isDigitChar c = false := fun c hc => space_not_digit (hws c hc)
  simp only [matchNumYearHere]
  rw [takeWhile_append_none hnd m, dropWhile_append_none hnd m]
  by_cases he : (m.takeWhile isDigitChar).isEmpty = true
  · rw [if_pos he, if_pos he]
  · rw [if_neg he, if_neg he, List.dropWhile_append]
    by_cases h2 : ((m.dropWhile isDigitChar).dropWhile isPySpace).isEmpty = true
    · rw [if_pos h2, dropWhile_space_nil hws]
      rw [List.isEmpty_iff] at h2
      rw [h2]
    · rw [if_neg h2, afterDigits_append_ws hws]

theorem matchNumYearHere_none_of_head {l : Str}
    (h : ∀ c ∈ l.head?, isDigitChar c = false) : matchNumYearHere l = none := by
  simp only [matchNumYearHere]
  rw [takeWhile_eq_nil_of_head h]
  rfl

theorem searchNumYear_cons (c : Char) (rest : Str) :
    searchNumYear (c :: rest) =
      match matchNumYearHere (c :: rest) with
      | some g => some g
      | none => searchNumYear rest :=
  rfl

theorem searchFirstInt_cons (c : Char) (rest : Str) :
    searchFirstInt (c :: rest) =
      if isDigitChar c then some ((c :: rest).takeWhile isDigitChar)
      else searchFirstInt rest :=
  rfl

theorem searchNumYear_none_of_all {l : Str}
    (h : ∀ c ∈ l, isDigitChar c = false) : searchNumYear l = none := by
  induction l with
  | nil => rfl
  | cons c rest ih =>
    simp only [searchNumYear]
    rw [matchNumYearHere_none_of_head
      (fun x hx => by cases hx; exact h c (List.mem_cons_self c rest))]
    exact ih fun x hx => h x (List.mem_cons_of_mem c hx)

theorem searchNumYear_append_ws {ws : Str} (hws : ∀ c ∈ ws, isPySpace c = true) :
    ∀ m : Str, searchNumYear (m ++ ws) = searchNumYear m
  | [] => by
    simp only [List.nil_append]
    rw [searchNumYear_none_of_all (fun c hc => space_not_digit (hws c hc))]
    rfl
  | c :: m' => by
    rw [List.cons_append, searchNumYear_cons, searchNumYear_cons,
      ← List.cons_append, matchNumYearHere_append_ws hws (c :: m')]
    cases hm : matchNumYearHere (c :: m') with
    | some g => rfl
    | none => exact searchNumYear_append_ws hws m'

theorem searchNumYear_drop_ws_front {l : Str} : ∀ {ws : Str}, (∀ c ∈ ws, isPySpace c = true) →
    searchNumYear (ws ++ l) = searchNumYear l
  | [], _ => rfl
  | w :: wt, hws => by
    simp only [List.cons_append, searchNumYear]
    rw [matchNumYearHere_none_of_head
      (fun c hc => by cases hc; exact space_not_digit (hws w (List.mem_cons_self w wt)))]
    exact searchNumYear_drop_ws_front fun c hc => hws c (List.mem_cons_of_mem w hc)

theorem searchFirstInt_none_of_all {l : Str} (h : ∀ c ∈ l, isDigitChar c = false) :
    searchFirstInt l = none := by
  induction l with
  | nil => rfl
  | cons c rest ih =>
    simp only [searchFirstInt]
    rw [if_neg (by simp [h c (List.mem_cons_self c rest)])]
    exact ih fun x hx => h x (List.mem_cons_of_mem c hx)

theorem searchFirstInt_append_ws {ws : Str} (hws : ∀ c ∈ ws, isPySpace c = true) :
    ∀ m : Str, searchFirstInt (m ++ ws) = searchFirstInt m
  | [] => by
    simp only [List.nil_append]
    rw [searchFirstInt_none_of_all (fun c hc => space_not_digit (hws c hc))]
    rfl
  | c :: m' => by
    have hnd : ∀ x ∈ ws, isDigitChar x = false := fun x hx => space_not_digit (hws x hx)
    rw [List.cons_append, searchFirstInt_cons, searchFirstInt_cons]
    by_cases hc : isDigitChar c = true
    · rw [if_pos hc, if_pos hc, ← List.cons_append, takeWhile_append_none hnd]
    · rw [if_neg (by simp [hc]), if_neg (by simp [hc])]
      exact searchFirstInt_append_ws hws m'

theorem searchFirstInt_drop_ws_front {l : Str} : ∀ {ws : Str}, (∀ c ∈ ws, isPySpace c = true) →
    searchFirstInt (ws ++ l) = searchFirstInt l
  | [], _ => rfl
  | w :: wt, hws => by
    simp only [List.cons_append, searchFirstInt]
    rw [if_neg (by simp [space_not_digit (hws w (List.mem_cons_self w wt))])]
    exact searchFirstInt_drop_ws_front fun c hc => hws c (List.mem_cons_of_mem w hc)

theorem pyStrip_decomp (l : Str) :
    ∃ u v, l = u ++ (pyStrip l ++ v) ∧ (∀ c ∈ u, isPySpace c = true) ∧
      (∀ c ∈ v, isPySpace c = true) := by
  refine ⟨l.takeWhile isPySpace,
    ((l.dropWhile isPySpace).reverse.takeWhile isPySpace).reverse, ?_, ?_, ?_⟩
  · conv_lhs => rw [← List.takeWhile_append_dropWhile isPySpace l]
    congr 1
    conv_lhs => rw [← List.reverse_reverse (l.dropWhile isPySpace),
      ← List.takeWhile_append_dropWhile isPySpace (l.dropWhile isPySpace).reverse]
    rw [List.reverse_append]
    rfl
  · exact fun c hc => List.mem_takeWhile_imp hc
  · intro c hc
    rw [List.mem_reverse] at hc
    exact List.mem_takeWhile_imp hc

theorem searchNumYear_pyStrip (l : Str) : searchNumYear (pyStrip l) = searchNumYear l := by
  obtain ⟨u, v, hl, hu, hv⟩ := pyStrip_decomp l
  conv_rhs => rw [hl]
  rw [searchNumYear_drop_ws_front hu, searchNumYear_append_ws hv (pyStrip l)]

theorem searchFirstInt_pyStrip (l : Str) : searchFirstInt (pyStrip l) = searchFirstInt l := by
  obtain ⟨u, v, hl, hu, hv⟩ := pyStrip_decomp l
  conv_rhs => rw [hl]
  rw [searchFirstInt_drop_ws_front hu, searchFirstInt_append_ws hv (pyStrip l)]

/-! ### Soundness and completeness of the `N/AAAA` search -/

theorem matchNumYearHere_complete {d w1 w2 y b : Str}
    (hd : d ≠ []) (hdd : ∀ c ∈ d, isDigitChar c = true)
    (hw1 : ∀ c ∈ w1, isPySpace c = true) (hw2 : ∀ c ∈ w2, isPySpace c = true)
    (hy4 : y.length = 4) (hyd : ∀ c ∈ y, isDigitChar c = true) :
    matchNumYearHere (d ++ (w1 ++ '/' :: (w2 ++ (y ++ b)))) = some (d, y) := by
  have hhead : ∀ c ∈ (w1 ++ '/' :: (w2 ++ (y ++ b))).head?, isDigitChar c = false := by
    intro c hc
    cases w1 with
    | nil => cases hc; exact slash_not_digit
    | cons w wt =>
      rw [List.cons_append, List.head?_cons] at hc
      obtain rfl : w = c := Option.mem_some_iff.mp hc
      exact space_not_digit (hw1 w (List.mem_cons_self w wt))
  simp only [matchNumYearHere]
  rw [takeWhile_run hdd hhead, dropWhile_run hdd hhead,
    if_neg (by simp [List.isEmpty_iff, hd]),
    dropWhile_run hw1 (fun c hc => by cases hc; exact slash_not_space)]
  simp only [afterDigits, if_pos rfl]
  have hyhead : ∀ c ∈ (y ++ b).head?, isPySpace c = false := by
    intro c hc
    cases y with
    | nil => simp at hy4
    | cons y0 yt =>
      rw [List.cons_append, List.head?_cons] at hc
      obtain rfl : y0 = c := Option.mem_some_iff.mp hc
      exact digit_not_space (hyd y0 (List.mem_cons_self y0 yt))
  rw [dropWhile_run hw2 hyhead]
  obtain ⟨y1, y2, y3, y4, rfl⟩ : ∃ y1 y2 y3 y4, y = [y1, y2, y3, y4] := by
    rcases y with _ | ⟨y1, _ | ⟨y2, _ | ⟨y3, _ | ⟨y4, _ | ⟨y5, yr⟩⟩⟩⟩⟩ <;>
      simp only [List.length_cons, List.length_nil] at hy4
    · omega
    · omega
    · omega
    · omega
    · exact ⟨y1, y2, y3, y4, rfl⟩
    · omega
  have h1 := hyd y1 (by simp)
  have h2 := hyd y2 (by simp)
  have h3 := hyd y3 (by simp)
  have h4 := hyd y4 (by simp)
  simp [grab4, h1, h2, h3, h4]

theorem searchNumYear_of_matchHere {l : Str} {g : Str × Str} (hl : l ≠ [])
    (h : matchNumYearHere l = some g) : searchNumYear l = some g := by
  cases l with
  | nil => cases hl rfl
  | cons c rest => rw [searchNumYear_cons, h]

theorem searchNumYear_complete : ∀ (a : Str) {d w1 w2 y b : Str},
    d ≠ [] → (∀ c ∈ d, isDigitChar c = true) → (∀ c ∈ w1, isPySpace c = true) →
    (∀ c ∈ w2, isPySpace c = true) → y.length = 4 → (∀ c ∈ y, isDigitChar c = true) →
    (searchNumYear (a ++ (d ++ (w1 ++ '/' :: (w2 ++ (y ++ b)))))).isSome = true
  | [], d, w1, w2, y, b, hd, hdd, hw1, hw2, hy4, hyd => by
    rw [List.nil_append,
      searchNumYear_of_matchHere (by simp [hd]) (matchNumYearHere_complete hd hdd hw1 hw2 hy4 hyd)]
    rfl
  | x :: a', d, w1, w2, y, b, hd, hdd, hw1, hw2, hy4, hyd => by
    rw [List.cons_append, searchNumYear_cons]
    cases hm : matchNumYearHere (x :: (a' ++ (d ++ (w1 ++ '/' :: (w2 ++ (y ++ b)))))) with
    | some g => rfl
    | none => exact searchNumYear_complete a' hd hdd hw1 hw2 hy4 hyd

theorem hasNumYear_isSome {l : Str} (h : HasNumYear l) : (searchNumYear l).isSome = true := by
  obtain ⟨a, d, w1, w2, y, b, rfl, hd, hdd, hw1, hw2, hy4, hyd⟩ := h
  exact searchNumYear_complete a hd hdd hw1 hw2 hy4 hyd

theorem not_hasNumYear_of_none {l : Str} (h : searchNumYear l = none) : ¬HasNumYear l := by
  intro hh
  have := hasNumYear_isSome hh
  rw [h] at this
  cases this

theorem matchNumYearHere_sound {l d y : Str} (h : matchNumYearHere l = some (d, y)) :
    ∃ w1 w2 b, l = d ++ (w1 ++ '/' :: (w2 ++ (y ++ b))) ∧ d ≠ [] ∧
      (∀ c ∈ d, isDigitChar c = true) ∧ (∀ c ∈ w1, isPySpace c = true) ∧
      (∀ c ∈ w2, isPySpace c = true) ∧ y.length = 4 ∧ (∀ c ∈ y, isDigitChar c = true) := by
  simp only [matchNumYearHere] at h
  by_cases he : (l.takeWhile isDigitChar).isEmpty = true
  · rw [if_pos he] at h; cases h
  · rw [if_neg he] at h
    rcases hs : (l.dropWhile isDigitChar).dropWhile isPySpace with _ | ⟨f, rest2⟩
    · rw [hs] at h; cases h
    · rw [hs] at h
      simp only [afterDigits] at h
      by_cases hf : f = '/'
      · rw [if_pos hf] at h
        rcases hg : grab4 (rest2.dropWhile isPySpace) with _ | y0
        · rw [hg] at h; cases h
        · rw [hg] at h
          simp only [Option.map_some'] at h
          injection h with h2
          obtain ⟨rfl, rfl⟩ : l.takeWhile isDigitChar = d ∧ y0 = y := by
            constructor
            · exact congrArg Prod.fst h2
            · exact congrArg Prod.snd h2
          obtain ⟨t, hzt, hy4, hyd⟩ := grab4_sound hg
          subst hf
          refine ⟨(l.dropWhile isDigitChar).takeWhile isPySpace,
            rest2.takeWhile isPySpace, t, ?_, ?_, ?_, ?_, ?_, hy4, hyd⟩
          · conv_lhs => rw [← List.takeWhile_append_dropWhile isDigitChar l]
            congr 1
            conv_lhs => rw [← List.takeWhile_append_dropWhile isPySpace
              (l.dropWhile isDigitChar), hs]
            congr 1
            conv_lhs => rw [← List.takeWhile_append_dropWhile isPySpace rest2, hzt]
          · intro hnil
            rw [hnil] at he
            simp at he
          · exact fun c hc => List.mem_takeWhile_imp hc
          · exact fun c hc => List.mem_takeWhile_imp hc
          · exact fun c hc => List.mem_takeWhile_imp hc
      · rw [if_neg hf] at h
        cases h

theorem searchNumYear_sound : ∀ {l d y : Str}, searchNumYear l = some (d, y) →
    ∃ a w1 w2 b, l = a ++ (d ++ (w1 ++ '/' :: (w2 ++ (y ++ b)))) ∧ d ≠ [] ∧
      (∀ c ∈ d, isDigitChar c = true) ∧ (∀ c ∈ w1, isPySpace c = true) ∧
      (∀ c ∈ w2, isPySpace c = true) ∧ y.length = 4 ∧ (∀ c ∈ y, isDigitChar c = true)
  | [], d, y, h => by cases h
  | c :: rest, d, y, h => by
    rw [searchNumYear_cons] at h
    cases hm : matchNumYearHere (c :: rest) with
    | some g =>
      rw [hm] at h
      obtain ⟨gd, gy⟩ := g
      injection h with h2
      obtain ⟨rfl, rfl⟩ : gd = d ∧ gy = y := by
        constructor
        · exact congrArg Prod.fst h2
        · exact congrArg Prod.snd h2
      obtain ⟨w1, w2, b, hdec, hcs⟩ := matchNumYearHere_sound hm
      exact ⟨[], w1, w2, b, by rw [List.nil_append, hdec], hcs⟩
    | none =>
      rw [hm] at h
      obtain ⟨a, w1, w2, b, hdec, hcs⟩ := searchNumYear_sound h
      exact ⟨c :: a, w1, w2, b, by rw [List.cons_append, hdec], hcs⟩

theorem hasNumYear_of_some {l d y : Str} (h : searchNumYear l = some (d, y)) :
    HasNumYear l := by
  obtain ⟨a, w1, w2, b, hdec, hd, hdd, hw1, hw2, hy4, hyd⟩ := searchNumYear_sound h
  exact ⟨a, d, w1, w2, y, b, hdec, hd, hdd, hw1, hw2, hy4, hyd⟩

theorem searchFirstInt_decomp : ∀ {a d b : Str}, (∀ c ∈ a, isDigitChar c = false) →
    d ≠ [] → (∀ c ∈ d, isDigitChar c = true) → (∀ c ∈ b.head?, isDigitChar c = false) →
    searchFirstInt (a ++ (d ++ b)) = some d
  | [], d, b, _, hd, hdd, hb => by
    rcases d with _ | ⟨d0, dt⟩
    · cases hd rfl
    · rw [List.nil_append, List.cons_append, searchFirstInt_cons,
        if_pos (hdd d0 (List.mem_cons_self d0 dt)), ← List.cons_append,
        takeWhile_run hdd hb]
  | x :: a', d, b, ha, hd, hdd, hb => by
    rw [List.cons_append, searchFirstInt_cons,
      if_neg (by simp [ha x (List.mem_cons_self x a')])]
    exact searchFirstInt_decomp (fun c hc => ha c (List.mem_cons_of_mem x hc)) hd hdd hb

/-- `parse_order_value` with the strip step discharged: the searches may
equivalently be run on the unstripped text. -/
theorem parse_order_value_eq (l : Str) :
    parse_order_value l =
      match searchNumYear l with
      | some (d, y) => (digitsToNat y, digitsToNat d)
      | none =>
        match searchFirstInt l with
        | some d => (0, digitsToNat d)
        | none => (10 ^ 9, 10 ^ 9) := by
  simp only [parse_order_value, safe_str]
  rw [searchNumYear_pyStrip, searchFirstInt_pyStrip]

/-- C1: `parse_order_value` behaves per the spec's three-way policy.
(1) On a text that is exactly `digits / four-digits`, it returns
`(year, number)`.  (2) On any text containing a substring
`digits [ws] / [ws] four-digits`, it returns `(year, number)` for such a
substring (the leftmost match).  (3) Otherwise, on any text containing a
digit, it returns `(0, n)` where `n` is the first left-to-right maximal
digit run.  (4) On text with no digit at all it returns the sentinel pair
`(10^9, 10^9)`. -/
theorem C1_parse_order_value :
    (∀ d y : Str, d ≠ [] → (∀ c ∈ d, isDigitChar c = true) → y.length = 4 →
      (∀ c ∈ y, isDigitChar c = true) →
      parse_order_value (d ++ '/' :: y) = (digitsToNat y, digitsToNat d)) ∧
    (∀ l : Str, HasNumYear l →
      ∃ a d w1 w2 y b, l = a ++ (d ++ (w1 ++ '/' :: (w2 ++ (y ++ b)))) ∧ d ≠ [] ∧
        (∀ c ∈ d, isDigitChar c = true) ∧ (∀ c ∈ w1, isPySpace c = true) ∧
        (∀ c ∈ w2, isPySpace c = true) ∧ y.length = 4 ∧
        (∀ c ∈ y, isDigitChar c = true) ∧
        parse_order_value l = (digitsToNat y, digitsToNat d)) ∧
    (∀ l a d b : Str, ¬HasNumYear l → l = a ++ (d ++ b) →
      (∀ c ∈ a, isDigitChar c = false) → d ≠ [] → (∀ c ∈ d, isDigitChar c = true) →
      (∀ c ∈ b.head?, isDigitChar c = false) →
      parse_order_value l = (0, digitsToNat d)) ∧
    (∀ l : Str, (∀ c ∈ l, isDigitChar c = false) →
      parse_order_value l = (10 ^ 9, 10 ^ 9)) := by
  refine ⟨?_, ?_, ?_, ?_⟩
  · intro d y hd hdd hy4 hyd
    rw [parse_order_value_eq]
    have hm : matchNumYearHere (d ++ ([] ++ '/' :: ([] ++ (y ++ [])))) = some (d, y) :=
      matchNumYearHere_complete hd hdd (fun c hc => by cases hc)
        (fun c hc => by cases hc) hy4 hyd
    simp only [List.nil_append, List.append_nil] at hm
    rw [searchNumYear_of_matchHere (by simp [hd]) hm]
  · intro l hl
    have h1 : (searchNumYear l).isSome = true := hasNumYear_isSome hl
    rcases hs : searchNumYear l with _ | ⟨d, y⟩
    · rw [hs] at h1; cases h1
    · obtain ⟨a, w1, w2, b, hdec, hd, hdd, hw1, hw2, hy4, hyd⟩ := searchNumYear_sound hs
      refine ⟨a, d, w1, w2, y, b, hdec, hd, hdd, hw1, hw2, hy4, hyd, ?_⟩
      rw [parse_order_value_eq, hs]
  · intro l a d b hno hl ha hd hdd hb
    have hnone : searchNumYear l = none := by
      rcases hs : searchNumYear l with _ | ⟨gd, gy⟩
      · rfl
      · exact absurd (hasNumYear_of_some hs) hno
    rw [parse_order_value_eq, hnone, hl, searchFirstInt_decomp ha hd hdd hb]
  · intro l hnd
    rw [parse_order_value_eq, searchNumYear_none_of_all hnd, searchFirstInt_none_of_all hnd]

/-- Witness for C1: each clause applied at a concrete input. -/
theorem C1_witness :
    parse_order_value "123/2025".toList = (2025, 123) ∧
    (∃ a d w1 w2 y b, "Port 12/2024 x".toList =
        a ++ (d ++ (w1 ++ '/' :: (w2 ++ (y ++ b)))) ∧ d ≠ [] ∧
        (∀ c ∈ d, isDigitChar c = true) ∧ (∀ c ∈ w1, isPySpace c = true) ∧
        (∀ c ∈ w2, isPySpace c = true) ∧ y.length = 4 ∧
        (∀ c ∈ y, isDigitChar c = true) ∧
        parse_order_value "Port 12/2024 x".toList = (digitsToNat y, digitsToNat d)) ∧
    parse_order_value "abc 78 def".toList = (0, 78) ∧
    parse_order_value "sem numero".toList = (10 ^ 9, 10 ^ 9) := by
  refine ⟨?_, ?_, ?_, ?_⟩
  · have h := C1_parse_order_value.1 "123".toList "2025".toList
      (by decide) (by decide) (by decide) (by decide)
    exact h.trans (by decide)
  · exact C1_parse_order_value.2.1 "Port 12/2024 x".toList
      ⟨"Port ".toList, "12".toList, [], [], "2024".toList, " x".toList,
        by decide, by decide, by decide, by decide, by decide, by decide, by decide⟩
  · have h := C1_parse_order_value.2.2.1 "abc 78 def".toList
      "abc ".toList "78".toList " def".toList
      (not_hasNumYear_of_none (by decide)) (by decide) (by decide)
      (by decide) (by decide) (by decide)
    exact h.trans (by decide)
  · exact C1_parse_order_value.2.2.2 "sem numero".toList (by decide)

/-! ### Marker-block insertion -/

theorem isPrefixOf_append_self : ∀ l t : Str, l.isPrefixOf (l ++ t) = true
  | [], t => by rw [List.nil_append]; cases t <;> rfl
  | c :: l', t => by
    simp only [List.cons_append, List.isPrefixOf, beq_self_eq_true, Bool.true_and]
    exact isPrefixOf_append_self l' t

theorem isSubstring_self_append (nd b : Str) : isSubstring nd (nd ++ b) = true := by
  cases nd with
  | nil => cases b <;> simp [isSubstring, List.isPrefixOf]
  | cons n nt =>
    rw [List.cons_append]
    simp only [isSubstring, Bool.or_eq_true]
    left
    exact isPrefixOf_append_self (n :: nt) b

theorem isSubstring_parts (nd a b : Str) : isSubstring nd (a ++ (nd ++ b)) = true := by
  induction a with
  | nil => rw [List.nil_append]; exact isSubstring_self_append nd b
  | cons x a' ih =>
    rw [List.cons_append]
    simp only [isSubstring, Bool.or_eq_true]
    right
    exact ih

theorem scanInsert_none (marker : Str) (lines : List Str) (sp : Nat) :
    ∀ ps : List Paragraph, (∀ p ∈ ps, isSubstring marker p.text = false) →
      scanInsert marker lines sp ps = none
  | [], _ => rfl
  | p :: rest, h => by
    simp only [scanInsert]
    rw [if_neg (by simp [h p (List.mem_cons_self p rest)]),
      scanInsert_none marker lines sp rest (fun q hq => h q (List.mem_cons_of_mem p hq))]
    rfl

theorem insertedParas_eq (sp : Nat) : ∀ lines : List Str,
    insertedParas sp lines =
      (lines.filter (fun l => !(pyStrip l).isEmpty)).map
        (fun l => ⟨l, "Normal".toList, some sp⟩)
  | [] => rfl
  | line :: rest => by
    simp only [insertedParas, List.filter_cons]
    by_cases h : (pyStrip line).isEmpty = true
    · rw [if_pos h, insertedParas_eq sp rest]
      simp [h]
    · rw [if_neg h, insertedParas_eq sp rest]
      have h2 : (!(pyStrip line).isEmpty) = true := by simp [Bool.not_eq_true] at h ⊢; simp [h]
      rw [if_pos h2, List.map_cons]

theorem scanInsert_found (marker : Str) (lines : List Str) (sp : Nat)
    (p : Paragraph) (post : List Paragraph) (hp : isSubstring marker p.text = true) :
    ∀ pre : List Paragraph, (∀ q ∈ pre, isSubstring marker q.text = false) →
      scanInsert marker lines sp (pre ++ p :: post) =
        some (pre ++ (insertedParas sp lines ++ { p with text := [] } :: post))
  | [], _ => by
    rw [List.nil_append]
    simp only [scanInsert]
    rw [if_pos hp, List.nil_append]
  | q :: pre', h => by
    rw [List.cons_append]
    simp only [scanInsert]
    rw [if_neg (by simp [h q (List.mem_cons_self q pre')]),
      scanInsert_found marker lines sp p post hp pre'
        (fun x hx => h x (List.mem_cons_of_mem q hx))]
    rw [Option.map_some', List.cons_append]

/-- C3: when the configured marker is contained in no body paragraph,
`insert_block_at_marker` fails with an error whose message names the
marker, and no document value is produced (the pipeline gets the error,
never a partial document). -/
theorem C3_marker_not_found (doc : DocxDoc) (marker : Str) (lines : List Str) (sp : Nat)
    (h : ∀ p ∈ doc.paragraphs, isSubstring marker p.text = false) :
    ∃ msg, insert_block_at_marker doc marker lines sp = .error msg ∧
      isSubstring marker msg = true ∧
      ∀ d : DocxDoc, insert_block_at_marker doc marker lines sp ≠ .ok d := by
  have hscan := scanInsert_none marker lines sp doc.paragraphs h
  refine ⟨"Marcador '".toList ++
      (marker ++ "' não encontrado no corpo do documento.".toList), ?_, ?_, ?_⟩
  · simp only [insert_block_at_marker]
    rw [hscan]
  · exact isSubstring_parts marker "Marcador '".toList
      "' não encontrado no corpo do documento.".toList
  · intro d hd
    simp only [insert_block_at_marker] at hd
    rw [hscan] at hd
    cases hd

/-- Witness for C3 at a concrete marker-free document. -/
theorem C3_witness :
    ∃ msg, insert_block_at_marker ⟨[⟨"sem marcador".toList, "Normal".toList, none⟩]⟩
        "INSERIR CAMPO PORTARIAS".toList ["linha".toList] 12 = .error msg ∧
      isSubstring "INSERIR CAMPO PORTARIAS".toList msg = true ∧
      ∀ d : DocxDoc, insert_block_at_marker
          ⟨[⟨"sem marcador".toList, "Normal".toList, none⟩]⟩
          "INSERIR CAMPO PORTARIAS".toList ["linha".toList] 12 ≠ .ok d :=
  C3_marker_not_found ⟨[⟨"sem marcador".toList, "Normal".toList, none⟩]⟩
    "INSERIR CAMPO PORTARIAS".toList ["linha".toList] 12 (by decide)

/-- Counterexample to C2 as stated: with one whitespace-only generated
line, the code inserts NO paragraph for it (the line is skipped), while
the claim "one new paragraph per generated line" predicts an inserted
paragraph carrying that line.  The actual result clears the marker
paragraph and inserts nothing. -/
theorem C2_counterexample :
    insert_block_at_marker ⟨[⟨"X MARK".toList, "Body".toList, none⟩]⟩
        "MARK".toList [" ".toList] 12 =
      .ok ⟨[⟨[], "Body".toList, none⟩]⟩ ∧
    ¬ insert_block_at_marker ⟨[⟨"X MARK".toList, "Body".toList, none⟩]⟩
        "MARK".toList [" ".toList] 12 =
      .ok ⟨[" ".toList].map (fun l => ⟨l, "Normal".toList, some 12⟩) ++
        [⟨[], "Body".toList, none⟩]⟩ := by
  constructor
  · rfl
  · intro h
    rw [show insert_block_at_marker ⟨[⟨"X MARK".toList, "Body".toList, none⟩]⟩
        "MARK".toList [" ".toList] 12 = .ok ⟨[⟨[], "Body".toList, none⟩]⟩ from rfl] at h
    injection h with h2
    exact absurd (congrArg DocxDoc.paragraphs h2) (by decide)

/-- C2 (amended): when the marker is found, the first matching body
paragraph is cleared (the marker disappears), and immediately before it
one new paragraph is inserted per NON-whitespace-only generated line, in
exactly the input sequence's order, each carrying the configured
spacing-after value and the document's "Normal" style; whitespace-only
lines are skipped, later marker occurrences are ignored, and all other
paragraphs are unchanged. -/
theorem C2_amended_insert_block (marker : Str) (lines : List Str) (sp : Nat)
    (pre post : List Paragraph) (p : Paragraph)
    (hpre : ∀ q ∈ pre, isSubstring marker q.text = false)
    (hp : isSubstring marker p.text = true) :
    insert_block_at_marker ⟨pre ++ p :: post⟩ marker lines sp =
      .ok ⟨pre ++ ((lines.filter (fun l => !(pyStrip l).isEmpty)).map
            (fun l => ⟨l, "Normal".toList, some sp⟩) ++
          { p with text := [] } :: post)⟩ := by
  simp only [insert_block_at_marker]
  rw [scanInsert_found marker lines sp p post hp pre hpre, insertedParas_eq]

/-- Witness for C2 (amended) at a concrete document: two real lines and a
blank one; the blank line is skipped, the others are inserted in order. -/
theorem C2_amended_witness :
    insert_block_at_marker
        ⟨[⟨"titulo".toList, "Head".toList, none⟩,
          ⟨"x MARK y".toList, "Body".toList, some 3⟩,
          ⟨"MARK outra vez".toList, "Body".toList, none⟩]⟩
        "MARK".toList ["um".toList, "  ".toList, "dois".toList] 12 =
      .ok ⟨[⟨"titulo".toList, "Head".toList, none⟩,
        ⟨"um".toList, "Normal".toList, some 12⟩,
        ⟨"dois".toList, "Normal".toList, some 12⟩,
        ⟨[], "Body".toList, some 3⟩,
        ⟨"MARK outra vez".toList, "Body".toList, none⟩]⟩ := by
  have h := C2_amended_insert_block "MARK".toList
    ["um".toList, "  ".toList, "dois".toList] 12
    [⟨"titulo".toList, "Head".toList, none⟩]
    [⟨"MARK outra vez".toList, "Body".toList, none⟩]
    ⟨"x MARK y".toList, "Body".toList, some 3⟩ (by decide) (by decide)
  exact h.trans (by rfl)

/-! ### Sheet loading, order-column guessing, and record lines -/

theorem load_sheet_ok (nfkd : Str → Str) (comb : Char → Bool) (headers : List Str)
    (rows : List (List (Option Str))) (h : rows ≠ []) :
    load_sheet nfkd comb headers rows =
      .ok ⟨headers.map (normalize_key nfkd comb),
        rows.map (fun row => (headers.map (normalize_key nfkd comb)).zip
          (row.map (fun cell => safe_str (some (fillna cell))))),
        (rows.map (fun row => (headers.map (normalize_key nfkd comb)).zip
          (row.map (fun cell => safe_str (some (fillna cell)))))).headD []⟩ := by
  simp only [load_sheet]
  rw [if_neg (by simp [h])]

/-- C6: `load_sheet` fails exactly when the spreadsheet has zero data
rows, with the empty-input message; and in that case the whole pipeline
returns that error before anything else happens — no document value is
produced, and the output does not depend on the template (the template is
untouched; no rendering has run). -/
theorem C6_empty_input (nfkd : Str → Str) (comb : Char → Bool)
    (headers : List Str) (rows : List (List (Option Str))) :
    ((∃ e, load_sheet nfkd comb headers rows = .error e) ↔ rows = []) ∧
    (rows = [] →
      load_sheet nfkd comb headers rows =
        .error "A planilha está vazia (sem linhas de dados).".toList ∧
      ∀ (template : DocxDoc) (order_col : Str) (extras : List (Str × Str))
        (um : Bool) (mt : Str) (mc : List Str) (mlc : Bool) (ms : Nat),
        generate nfkd comb headers rows template order_col extras um mt mc mlc ms =
          .error "A planilha está vazia (sem linhas de dados).".toList) := by
  constructor
  · constructor
    · rintro ⟨e, he⟩
      by_cases h : rows = []
      · exact h
      · rw [load_sheet_ok nfkd comb headers rows h] at he
        cases he
    · rintro rfl
      exact ⟨_, rfl⟩
  · rintro rfl
    exact ⟨rfl, fun _ _ _ _ _ _ _ _ => rfl⟩

/-- Witness for C6: a headers-only sheet fails with the empty-input error,
and the pipeline propagates it whatever the template. -/
theorem C6_witness :
    (∃ e, load_sheet (fun l => l) (fun _ => false) ["Nome".toList] [] = .error e) ∧
    generate (fun l => l) (fun _ => false) ["Nome".toList] []
        ⟨[⟨"{{NOME}}".toList, "Normal".toList, none⟩]⟩ "Nome".toList [] true
        "MARK".toList ["Nome".toList] true 12 =
      .error "A planilha está vazia (sem linhas de dados).".toList := by
  constructor
  · exact (C6_empty_input (fun l => l) (fun _ => false) ["Nome".toList] []).1.mpr rfl
  · exact ((C6_empty_input (fun l => l) (fun _ => false) ["Nome".toList] []).2 rfl).2
      ⟨[⟨"{{NOME}}".toList, "Normal".toList, none⟩]⟩ "Nome".toList [] true
      "MARK".toList ["Nome".toList] true 12

theorem pyStrip_idem (s : Str) : pyStrip (pyStrip s) = pyStrip s :=
  stripEnds_fixed_of_ends stripEnds_head stripEnds_getLast

/-- C9: the records produced by `load_sheet` are exactly the rows with
every cell cleaned: a missing/NaN cell becomes the empty string and a
present cell is trimmed — so every record maps each normalized key to a
(possibly empty) trimmed string, never null. -/
theorem C9_cells_trimmed (nfkd : Str → Str) (comb : Char → Bool)
    (headers : List Str) (rows : List (List (Option Str))) (sd : SheetData)
    (h : load_sheet nfkd comb headers rows = .ok sd) :
    sd.records = rows.map (fun row =>
      (headers.map (normalize_key nfkd comb)).zip
        (row.map (fun cell =>
          match cell with
          | none => []
          | some s => pyStrip s))) ∧
    ∀ r ∈ sd.records, ∀ kv ∈ r, pyStrip kv.2 = kv.2 := by
  have hrows : rows ≠ [] := by
    rintro rfl
    rw [show load_sheet nfkd comb headers [] =
      .error "A planilha está vazia (sem linhas de dados).".toList from rfl] at h
    cases h
  rw [load_sheet_ok nfkd comb headers rows hrows] at h
  injection h with h2
  subst h2
  constructor
  · apply List.map_congr_left
    intro row _
    congr 1
    apply List.map_congr_left
    intro cell _
    cases cell <;> rfl
  · intro r hr kv hkv
    obtain ⟨row, _, rfl⟩ := List.mem_map.mp hr
    have hv := (List.of_mem_zip hkv).2
    obtain ⟨cell, _, hc⟩ := List.mem_map.mp hv
    rw [← hc]
    cases cell with
    | none => rfl
    | some s => exact pyStrip_idem s

/-- Witness for C9 at a concrete sheet with one padded cell and one
missing cell. -/
theorem C9_witness :
    ∃ sd, load_sheet (fun l => l) (fun _ => false) ["Nome".toList]
        [[some " Ana ".toList], [none]] = .ok sd ∧
      ∀ r ∈ sd.records, ∀ kv ∈ r, pyStrip kv.2 = kv.2 := by
  refine ⟨_, rfl, ?_⟩
  exact (C9_cells_trimmed (fun l => l) (fun _ => false) ["Nome".toList]
    [[some " Ana ".toList], [none]] _ rfl).2

/-- Counterexample to C8 as stated: with normalized columns
`["NOME", "DATA"]` no column resolves for ordering (no priority name, no
keyword), yet no error of any kind is raised — the app silently preselects
the first column, `"NOME"`, which is a column of the sheet. -/
theorem C8_counterexample :
    guess_order_column ["NOME".toList, "DATA".toList] = none ∧
    guessed_default ["NOME".toList, "DATA".toList] = "NOME".toList ∧
    guessed_default ["NOME".toList, "DATA".toList] ∈ ["NOME".toList, "DATA".toList] := by
  refine ⟨by decide, by decide, by decide⟩

/-- C8 (amended): `guess_order_column` returns `none` exactly when no
priority canonical name is present and no column contains an ordering
keyword; in that case the pipeline raises no error — the app silently
preselects the first normalized column (or the empty string when there
are no columns) as the default ordering column. -/
theorem C8_amended_order_column (cols : List Str) :
    (guess_order_column cols = none ↔
      ((∀ p ∈ priorities, cols.contains p = false) ∧
        (∀ c ∈ cols, ∀ k ∈ orderKeywords, isSubstring k c = false))) ∧
    (guess_order_column cols = none → guessed_default cols = cols.headD []) := by
  constructor
  · simp only [guess_order_column]
    cases hp : priorities.find? (fun p => cols.contains p) with
    | some p =>
      constructor
      · intro hh; cases hh
      · rintro ⟨h1, _⟩
        have hsat := List.find?_some hp
        have hmem := List.mem_of_find?_eq_some hp
        rw [h1 p hmem] at hsat
        cases hsat
    | none =>
      rw [List.find?_eq_none] at hp
      constructor
      · intro hh
        rw [List.find?_eq_none] at hh
        refine ⟨fun p hpm => by simpa using hp p hpm, ?_⟩
        intro c hc k hk
        by_cases hb : isSubstring k c = true
        · exact absurd (List.any_eq_true.mpr ⟨k, hk, hb⟩) (hh c hc)
        · simpa using hb
      · rintro ⟨_, h2⟩
        rw [List.find?_eq_none]
        intro c hc hex
        obtain ⟨k, hk, hks⟩ := List.any_eq_true.mp hex
        rw [h2 c hc k hk] at hks
        cases hks
  · intro hnone
    simp only [guessed_default]
    rw [hnone]

/-- Witness for C8 (amended) at the concrete unresolvable column list. -/
theorem C8_witness :
    guessed_default ["NOME".toList, "DATA".toList] =
      (["NOME".toList, "DATA".toList] : List Str).headD [] :=
  (C8_amended_order_column ["NOME".toList, "DATA".toList]).2 (by decide)

/-! ### Empty-record lines (C10) -/

theorem lineParts_nil_of_empty (label : Bool) (r : Record) :
    ∀ cols : List Str, (∀ c ∈ cols, rget r c = []) → lineParts label r cols = []
  | [], _ => rfl
  | c :: cs, h => by
    simp only [lineParts]
    rw [h c (List.mem_cons_self c cs)]
    simp only [show safe_str (some ([] : Str)) = [] from rfl, List.isEmpty_nil, if_true]
    exact lineParts_nil_of_empty label r cs (fun x hx => h x (List.mem_cons_of_mem c hx))

theorem build_portaria_lines_eq (nfkd : Str → Str) (comb : Char → Bool)
    (records : List Record) (cols : List Str) (label : Bool) (sep : Str) :
    build_portaria_lines nfkd comb records cols label sep =
      records.map (fun r =>
        joinSep sep (lineParts label r (cols.map (normalize_key nfkd comb)))) :=
  rfl

/-- C10 (implicit): a record whose selected marker columns all hold empty
values contributes the empty generated line, and `insert_block_at_marker`
silently skips whitespace-only lines, so that record contributes no
inserted paragraph — the number of inserted paragraphs is strictly
smaller than the number of records. -/
theorem C10_empty_record_no_paragraph (nfkd : Str → Str) (comb : Char → Bool)
    (rs1 rs2 : List Record) (r : Record) (cols : List Str) (label : Bool) (sep : Str)
    (marker : Str) (sp : Nat) (pre post : List Paragraph) (p : Paragraph)
    (hr : ∀ c ∈ cols, rget r (normalize_key nfkd comb c) = [])
    (hpre : ∀ q ∈ pre, isSubstring marker q.text = false)
    (hp : isSubstring marker p.text = true) :
    build_portaria_lines nfkd comb (rs1 ++ r :: rs2) cols label sep =
      build_portaria_lines nfkd comb rs1 cols label sep ++
        [] :: build_portaria_lines nfkd comb rs2 cols label sep ∧
    (build_portaria_lines nfkd comb (rs1 ++ r :: rs2) cols label sep).length =
      rs1.length + 1 + rs2.length ∧
    insert_block_at_marker ⟨pre ++ p :: post⟩ marker
        (build_portaria_lines nfkd comb (rs1 ++ r :: rs2) cols label sep) sp =
      .ok ⟨pre ++
        (((build_portaria_lines nfkd comb (rs1 ++ r :: rs2) cols label sep).filter
            (fun l => !(pyStrip l).isEmpty)).map
          (fun l => ⟨l, "Normal".toList, some sp⟩) ++
          { p with text := [] } :: post)⟩ ∧
    ((build_portaria_lines nfkd comb (rs1 ++ r :: rs2) cols label sep).filter
        (fun l => !(pyStrip l).isEmpty)).length < rs1.length + 1 + rs2.length := by
  have hline : joinSep sep (lineParts label r (cols.map (normalize_key nfkd comb))) = [] := by
    rw [lineParts_nil_of_empty label r (cols.map (normalize_key nfkd comb))
      (fun c' hc' => by
        obtain ⟨c, hc, rfl⟩ := List.mem_map.mp hc'
        exact hr c hc)]
    rfl
  have hbuild : build_portaria_lines nfkd comb (rs1 ++ r :: rs2) cols label sep =
      build_portaria_lines nfkd comb rs1 cols label sep ++
        [] :: build_portaria_lines nfkd comb rs2 cols label sep := by
    rw [build_portaria_lines_eq, build_portaria_lines_eq, build_portaria_lines_eq,
      List.map_append, List.map_cons, hline]
  refine ⟨hbuild, ?_, ?_, ?_⟩
  · rw [hbuild, List.length_append, List.length_cons, build_portaria_lines_eq,
      build_portaria_lines_eq, List.length_map, List.length_map]
    omega
  · simp only [insert_block_at_marker]
    rw [scanInsert_found marker _ sp p post hp pre hpre, insertedParas_eq]
  · rw [hbuild, List.filter_append, List.filter_cons, if_neg (by decide),
      List.length_append]
    have h1 := List.length_filter_le (fun l => !(pyStrip l).isEmpty)
      (build_portaria_lines nfkd comb rs1 cols label sep)
    have h2 := List.length_filter_le (fun l => !(pyStrip l).isEmpty)
      (build_portaria_lines nfkd comb rs2 cols label sep)
    have hl1 : (build_portaria_lines nfkd comb rs1 cols label sep).length = rs1.length := by
      rw [build_portaria_lines_eq, List.length_map]
    have hl2 : (build_portaria_lines nfkd comb rs2 cols label sep).length = rs2.length := by
      rw [build_portaria_lines_eq, List.length_map]
    omega

/-- Witness for C10: two records, the second with an empty selected
column; only one paragraph-producing line survives. -/
theorem C10_witness :
    ((build_portaria_lines (fun l => l) (fun _ => false)
        [[("A".toList, "1".toList)], [("A".toList, [])]] ["A".toList] true
        " - ".toList).filter (fun l => !(pyStrip l).isEmpty)).length < 2 :=
  (C10_empty_record_no_paragraph (fun l => l) (fun _ => false)
    [[("A".toList, "1".toList)]] [] [("A".toList, [])] ["A".toList] true " - ".toList
    "MARK".toList 12 [] [] ⟨"MARK".toList, "Body".toList, none⟩
    (by decide) (by decide) (by decide)).2.2.2

/-! ### Placeholder substitution (C7, spec-modelled) -/

theorem substTokens_cons_of_ne (ctx : List (Str × Str)) {c : Char} (hc : ¬c = '{')
    (rest : Str) : substTokens ctx (c :: rest) = c :: substTokens ctx rest := by
  simp only [substTokens]
  conv_lhs => unfold substAux
  rw [if_neg hc]

theorem substKey_complete (ctx : List (Str × Str)) (b : Str) :
    ∀ (k acc : Str), (∀ c ∈ k, ¬(c = '{' ∨ c = '}')) →
    substAux ctx (some acc) (k ++ ('}' :: '}' :: b)) =
      (match ctxGet ctx (acc.reverse ++ k) with
       | some v => v
       | none => '{' :: '{' :: ((acc.reverse ++ k) ++ ['}', '}'])) ++
        substAux ctx none b
  | [], acc, _ => by
    simp only [List.nil_append, List.append_nil]
    rfl
  | kc :: k', acc, h => by
    rw [List.cons_append]
    have h1 : ¬kc = '}' := fun hh => h kc (List.mem_cons_self kc k') (Or.inr hh)
    have h2 : ¬kc = '{' := fun hh => h kc (List.mem_cons_self kc k') (Or.inl hh)
    conv_lhs => unfold substAux
    rw [if_neg h1, if_neg h2,
      substKey_complete ctx b k' (kc :: acc) (fun c hc => h c (List.mem_cons_of_mem kc hc))]
    have harg : (kc :: acc).reverse ++ k' = acc.reverse ++ (kc :: k') := by
      rw [List.reverse_cons, List.append_assoc, List.singleton_append]
    rw [harg]

/-- C7 (spec-modelled): during placeholder substitution, every literal
`{{KEY}}` token whose KEY is present in the context is replaced by the
context's string value; a token whose KEY is absent is left untouched;
and the document-level pass is total (every paragraph is processed, no
error).  `a` is the text before the token (containing no `{`, so the
token is the one being scanned) and `b` the text after it. -/
theorem C7_placeholder_substitution (ctx : List (Str × Str)) :
    (∀ a k b v, '{' ∉ a → (∀ c ∈ k, ¬(c = '{' ∨ c = '}')) →
      ctxGet ctx k = some v →
      substTokens ctx (a ++ ('{' :: '{' :: (k ++ ('}' :: '}' :: b)))) =
        a ++ (v ++ substTokens ctx b)) ∧
    (∀ a k b, '{' ∉ a → (∀ c ∈ k, ¬(c = '{' ∨ c = '}')) →
      ctxGet ctx k = none →
      substTokens ctx (a ++ ('{' :: '{' :: (k ++ ('}' :: '}' :: b)))) =
        a ++ ('{' :: '{' :: (k ++ ('}' :: '}' :: substTokens ctx b)))) ∧
    (∀ doc : DocxDoc, (render_sub doc ctx).paragraphs =
      doc.paragraphs.map (fun p => { p with text := substTokens ctx p.text })) := by
  refine ⟨?_, ?_, fun _ => rfl⟩
  · intro a k b v ha hk hv
    induction a with
    | nil =>
      rw [List.nil_append]
      show substAux ctx (some []) (k ++ ('}' :: '}' :: b)) = [] ++ (v ++ substTokens ctx b)
      rw [substKey_complete ctx b k [] hk]
      simp only [List.reverse_nil, List.nil_append]
      rw [hv]
      rfl
    | cons x a' ih =>
      have hx : ¬x = '{' := fun hh => ha (hh ▸ List.mem_cons_self x a')
      rw [List.cons_append, substTokens_cons_of_ne ctx hx,
        ih (fun hm => ha (List.mem_cons_of_mem x hm)), List.cons_append]
  · intro a k b ha hk hv
    induction a with
    | nil =>
      rw [List.nil_append]
      show substAux ctx (some []) (k ++ ('}' :: '}' :: b)) = _
      rw [substKey_complete ctx b k [] hk]
      simp only [List.reverse_nil, List.nil_append]
      rw [hv]
      simp only [List.cons_append, List.nil_append, List.append_assoc]
      rfl
    | cons x a' ih =>
      have hx : ¬x = '{' := fun hh => ha (hh ▸ List.mem_cons_self x a')
      rw [List.cons_append, substTokens_cons_of_ne ctx hx,
        ih (fun hm => ha (List.mem_cons_of_mem x hm)), List.cons_append]

/-- Witness for C7: a present key is replaced, an absent key's token is
left verbatim. -/
theorem C7_witness :
    substTokens [("NOME".toList, "Ana".toList)]
        ("X ".toList ++ ('{' :: '{' :: ("NOME".toList ++ ('}' :: '}' :: " y".toList)))) =
      "X Ana y".toList ∧
    substTokens [("NOME".toList, "Ana".toList)]
        ("X ".toList ++ ('{' :: '{' :: ("Q".toList ++ ('}' :: '}' :: " y".toList)))) =
      "X {{Q}} y".toList := by
  constructor
  · have h := (C7_placeholder_substitution [("NOME".toList, "Ana".toList)]).1
      "X ".toList "NOME".toList " y".toList "Ana".toList (by decide) (by decide) (by rfl)
    exact h.trans (by rfl)
  · have h := (C7_placeholder_substitution [("NOME".toList, "Ana".toList)]).2.1
      "X ".toList "Q".toList " y".toList (by decide) (by decide) (by rfl)
    exact h.trans (by rfl)

/-! ### Sorting (C4) -/

theorem keyLe_refl (a : Nat × Nat) : keyLe a a = true := by
  simp [keyLe]

theorem keyLe_trans (a b c : Nat × Nat) (hab : keyLe a b = true) (hbc : keyLe b c = true) :
    keyLe a c = true := by
  simp only [keyLe, Bool.or_eq_true, Bool.and_eq_true, decide_eq_true_eq] at hab hbc ⊢
  omega

theorem keyLe_total (a b : Nat × Nat) : (keyLe a b || keyLe b a) = true := by
  simp only [keyLe, Bool.or_eq_true, Bool.and_eq_true, decide_eq_true_eq]
  omega

theorem digitsToNat_lt_of_digits :
    ∀ (l : Str) (a : Nat), (∀ c ∈ l, isDigitChar c = true) →
    l.foldl (fun a c => a * 10 + (c.toNat - 48)) a < (a + 1) * 10 ^ l.length
  | [], a, _ => by simp
  | c :: l', a, h => by
    simp only [List.foldl_cons, List.length_cons]
    have hd := h c (List.mem_cons_self c l')
    simp only [isDigitChar, decide_eq_true_eq] at hd
    have hrec := digitsToNat_lt_of_digits l' (a * 10 + (c.toNat - 48))
      (fun x hx => h x (List.mem_cons_of_mem c hx))
    have hstep : (a * 10 + (c.toNat - 48)) + 1 ≤ (a + 1) * 10 := by omega
    calc l'.foldl (fun a c => a * 10 + (c.toNat - 48)) (a * 10 + (c.toNat - 48))
        < ((a * 10 + (c.toNat - 48)) + 1) * 10 ^ l'.length := hrec
      _ ≤ (a + 1) * 10 * 10 ^ l'.length := Nat.mul_le_mul_right _ hstep
      _ = (a + 1) * 10 ^ (l'.length + 1) := by ring

theorem digitsToNat_lt_of_len4 {y : Str} (h4 : y.length = 4)
    (hd : ∀ c ∈ y, isDigitChar c = true) : digitsToNat y < 10000 := by
  have h := digitsToNat_lt_of_digits y 0 hd
  rw [h4] at h
  simpa [digitsToNat] using h

/-- Every parsed order value is either the sentinel pair or has its epoch
strictly below the sentinel (a matched year has four digits, a bare number
gets epoch 0). -/
theorem parse_order_value_range (t : Str) :
    (parse_order_value t).1 < 10 ^ 9 ∨ parse_order_value t = (10 ^ 9, 10 ^ 9) := by
  rw [parse_order_value_eq]
  rcases hs : searchNumYear t with _ | ⟨d, y⟩
  · rcases hf : searchFirstInt t with _ | d
    · right; rfl
    · left
      show (0 : Nat) < 10 ^ 9
      norm_num
  · left
    obtain ⟨a, w1, w2, b, _, _, _, _, _, hy4, hyd⟩ := searchNumYear_sound hs
    show digitsToNat y < 10 ^ 9
    have h1 := digitsToNat_lt_of_len4 hy4 hyd
    have h9 : (10 : Nat) ^ 9 = 1000000000 := by norm_num
    omega

/-- C4: `sort_records` is stable (records with equal parsed keys keep
their relative order: for every key value, filtering the sorted list
equals filtering the input), idempotent (sorting twice equals sorting
once), arranges the records ascending by epoch then sequence, and places
unparseable records (sentinel key) after all parseable ones. -/
theorem C4_sort_records (nfkd : Str → Str) (comb : Char → Bool)
    (records : List Record) (order_col : Str) :
    (∀ k : Nat × Nat,
      (sort_records nfkd comb records order_col).filter
          (fun r => orderKey nfkd comb order_col r == k) =
        records.filter (fun r => orderKey nfkd comb order_col r == k)) ∧
    sort_records nfkd comb (sort_records nfkd comb records order_col) order_col =
      sort_records nfkd comb records order_col ∧
    (sort_records nfkd comb records order_col).Pairwise (fun a b =>
      keyLe (orderKey nfkd comb order_col a) (orderKey nfkd comb order_col b) = true) ∧
    (sort_records nfkd comb records order_col).Pairwise (fun a b =>
      orderKey nfkd comb order_col a = (10 ^ 9, 10 ^ 9) →
      orderKey nfkd comb order_col b = (10 ^ 9, 10 ^ 9)) := by
  have htrans : ∀ a b c : Record,
      keyLe (orderKey nfkd comb order_col a) (orderKey nfkd comb order_col b) →
      keyLe (orderKey nfkd comb order_col b) (orderKey nfkd comb order_col c) →
      keyLe (orderKey nfkd comb order_col a) (orderKey nfkd comb order_col c) :=
    fun a b c hab hbc => keyLe_trans _ _ _ hab hbc
  have htotal : ∀ a b : Record,
      (keyLe (orderKey nfkd comb order_col a) (orderKey nfkd comb order_col b) ||
        keyLe (orderKey nfkd comb order_col b) (orderKey nfkd comb order_col a)) :=
    fun a b => keyLe_total _ _
  have hsorted := List.sorted_mergeSort htrans htotal records
  refine ⟨?_, ?_, hsorted, ?_⟩
  · intro k
    have hperm := (List.mergeSort_perm records (fun a b =>
      keyLe (orderKey nfkd comb order_col a) (orderKey nfkd comb order_col b))).filter
      (fun r => orderKey nfkd comb order_col r == k)
    have hpw : (records.filter (fun r => orderKey nfkd comb order_col r == k)).Pairwise
        (fun a b => keyLe (orderKey nfkd comb order_col a)
          (orderKey nfkd comb order_col b) = true) := by
      apply List.pairwise_of_forall_mem_list
      intro a ha b hb
      have hka : orderKey nfkd comb order_col a = k := by
        simpa using (List.mem_filter.mp ha).2
      have hkb : orderKey nfkd comb order_col b = k := by
        simpa using (List.mem_filter.mp hb).2
      rw [hka, hkb]
      exact keyLe_refl k
    have hsub := List.sublist_mergeSort htrans htotal hpw (List.filter_sublist records)
    have hsub2 := hsub.filter (fun r => orderKey nfkd comb order_col r == k)
    rw [List.filter_eq_self.mpr
      (fun a ha => (List.mem_filter.mp ha).2)] at hsub2
    exact (hsub2.eq_of_length hperm.length_eq.symm).symm
  · exact List.mergeSort_of_sorted hsorted
  · refine hsorted.imp ?_
    intro a b hab hA
    rcases parse_order_value_range
        (rget b (normalize_key nfkd comb order_col)) with h | h
    · exfalso
      simp only [keyLe, hA, Bool.or_eq_true, Bool.and_eq_true, decide_eq_true_eq] at hab
      have hb1 : (orderKey nfkd comb order_col b).1 < 10 ^ 9 := h
      rcases hab with h1 | ⟨h2, _⟩
      · omega
      · omega
    · exact h

end Minutas
